import Mathlib

set_option maxHeartbeats 1000000

/-!
Shallow embedding of the MCMC sampler core of the `dlmtree` package
(`src/Fncs.cpp` and `src/tdlmm_Cpp.cpp`).

C++ `double` values are modelled as rationals (all arithmetic the claims
depend on is field arithmetic); randomness is modelled by an explicit
stream `ℕ → ℚ` of realized draws consumed at an explicit cursor, so that
every sampler routine is a pure function of its inputs and the stream.
Subroutines of the repository whose code is not in the two translated
source files (`tdlmProposeTree`, `tdlmModelEst`, the `Node` structure
operations) are modelled from the spec as deterministic oracles supplied
in the configuration.
-/

/- ### `Fncs.cpp`: weighted categorical sampling (`sampleInt`) -/

/-- Inner scan of `Fncs.cpp` `sampleInt`:
`sum = probs[0]; i = 0; while (sum < u) { ++i; sum += probs[i]; }`.
`scanFrom u sum i rest` continues the scan with accumulator `sum`, current
index `i`, and `rest` the entries after index `i`; `none` models the
out-of-bounds access `probs[i+1]` when the scan runs past the end. -/
def scanFrom (u : ℚ) : ℚ → ℕ → List ℚ → Option ℕ
  | sum, i, [] => if sum < u then none else some i
  | sum, i, p :: rest => if sum < u then scanFrom u (sum + p) (i + 1) rest else some i

/-- `Fncs.cpp` `sampleInt(probs, totP)` given the realized uniform draw
`u ~ runif(0, totP)`: scan cumulative sums for the selected index; `none`
models an out-of-bounds read (`probs[0]` on an empty vector, or running
past the end of the vector). -/
def sampleInt (probs : List ℚ) (u : ℚ) : Option ℕ :=
  match probs with
  | [] => none
  | p :: rest => scanFrom u p 0 rest

/- ### `Fncs.cpp`: sorted intersection and difference (`intersectAndDiff`) -/

/-- Core loop of `Fncs.cpp` `intersectAndDiff` (the `do { ... } while` over
indices `i` into `origVec` and `j` into `newVec`): heads are compared, a
smaller original element goes to the difference, an equal element to the
intersection, a smaller new element is skipped; when `newVec` is exhausted
the remaining original elements are appended to the difference, and when
`origVec` is exhausted the loop stops. -/
def iadLoop : List ℤ → List ℤ → List ℤ × List ℤ
  | [], _ => ([], [])
  | o :: os, [] => ([], o :: os)
  | o :: os, n :: ns =>
    if o < n then
      let p := iadLoop os (n :: ns)
      (p.1, o :: p.2)
    else if o = n then
      let p := iadLoop os ns
      (o :: p.1, p.2)
    else iadLoop (o :: os) ns
termination_by a b => a.length + b.length

/-- `Fncs.cpp` `intersectAndDiff(origVec, newVec)`: returns the pair
(intersection, difference); an empty `origVec` returns `(origVec, origVec)`
and an empty `newVec` returns `(newVec, origVec)`, exactly as the two early
returns in the source. -/
def intersectAndDiff (origVec newVec : List ℤ) : List ℤ × List ℤ :=
  if origVec = [] then (origVec, origVec)
  else if newVec = [] then (newVec, origVec)
  else iadLoop origVec newVec

/- ### `Fncs.cpp`: log Dirichlet density -/

/-- `Fncs.cpp` `logDirichletDensity(x, alpha)`: stops with a fatal error when
the two vectors have different sizes, otherwise accumulates
`lgamma(alpha.sum())` plus `(alpha(i) - 1) * log(x(i)) - lgamma(alpha(i))`
over all indices.  The transcendental functions `lgamma` and `log` are
uninterpreted parameters `lgam` and `lg`. -/
def logDirichletDensity (lgam lg : ℚ → ℚ) (x alpha : List ℚ) : Except String ℚ :=
  if x.length ≠ alpha.length then Except.error "logDirichletDensity incorrect size"
  else Except.ok ((List.range alpha.length).foldl
    (fun out i => out + ((alpha.getD i 0 - 1) * lg (x.getD i 0) - lgam (alpha.getD i 0)))
    (lgam alpha.sum))

/- ### The draw stream: explicit randomness -/

/-- State-threaded random-draw computations: a computation reads the stream
of realized draws and advances a cursor. -/
def DrawM (α : Type) : Type := (ℕ → ℚ) → ℕ → α × ℕ

/-- Return a value without consuming a draw. -/
def DrawM.pure {α : Type} (a : α) : DrawM α := fun _ c => (a, c)

/-- Sequence two draw computations. -/
def DrawM.bind {α β : Type} (m : DrawM α) (f : α → DrawM β) : DrawM β := fun s c =>
  let r := m s c
  f r.1 s r.2

instance : Monad DrawM where
  pure := DrawM.pure
  bind := DrawM.bind

/-- Consume one draw from the stream. -/
def nextD : DrawM ℚ := fun s c => (s c, c + 1)

/-- Consume `k` draws from the stream (models a vectorized draw such as
`rnorm(k, ...)`, whose realized values are the next `k` stream entries). -/
def drawN : ℕ → DrawM (List ℚ)
  | 0 => pure []
  | k + 1 => do
      let v ← nextD
      let vs ← drawN k
      pure (v :: vs)

/-- Arguments of one call to R's `rgamma(shape, scale)`; R's C API
parameterizes the Gamma distribution by shape and scale. -/
structure GammaReq where
  shape : ℚ
  scale : ℚ
deriving DecidableEq

/-- A Gamma distribution presented in shape/rate form. -/
structure GammaSR where
  shape : ℚ
  rate : ℚ
deriving DecidableEq

/-- The shape/rate form of the distribution drawn by `R::rgamma(shape, scale)`:
R's `rgamma` takes a shape and a SCALE argument, so the rate is `1 / scale`. -/
def GammaReq.toSR (r : GammaReq) : GammaSR := ⟨r.shape, 1 / r.scale⟩

/-- Modelled from the spec and R's API: `R::rgamma(shape, scale)` consumes one
draw from the stream (its realized value) and records the requested
distribution. -/
def rgammaD (shape scale : ℚ) : DrawM (ℚ × GammaReq) := do
  let v ← nextD
  pure (v, ⟨shape, scale⟩)

/- ### `Fncs.cpp`: half-Cauchy full conditional and Dirichlet draw -/

/-- Result of one `rHalfCauchyFC` call: the new value written through the
`x2` pointer, the value written through the `yInv` pointer (absent when the
pointer is null), and the two Gamma requests issued, in order. -/
structure HCOut where
  x2 : ℚ
  yOut : Option ℚ
  req1 : GammaReq
  req2 : GammaReq

/-- `Fncs.cpp` `rHalfCauchyFC(x2, a, b, yInv)`:
`yi = R::rgamma(1.0, x2/(x2 + 1.0))`; if the `yInv` pointer is non-null
(`useY`), `yi` is stored through it; then
`x2 = 1.0 / R::rgamma(0.5*(a + 1.0), 2.0/(b + 2.0*yi))`. -/
def rHalfCauchyFC (x2 a b : ℚ) (useY : Bool) : DrawM HCOut := do
  let r1 ← rgammaD 1 (x2 / (x2 + 1))
  let r2 ← rgammaD ((1/2) * (a + 1)) (2 / (b + 2 * r1.1))
  pure ⟨1 / r2.1, if useY then some r1.1 else none, r1.2, r2.2⟩

/-- Gamma variates of `Fncs.cpp` `rDirichlet`: one `R::rgamma(alpha(i), 1)`
draw per parameter, in order. -/
def gammaList : List ℚ → DrawM (List ℚ)
  | [] => pure []
  | a :: as => do
      let g ← rgammaD a 1
      let gs ← gammaList as
      pure (g.1 :: gs)

/-- `Fncs.cpp` `rDirichlet(alpha)`: draw independent `Gamma(alpha_i, 1)`
variates and normalize by their sum. -/
def rDirichletD (alpha : List ℚ) : DrawM (List ℚ) := do
  let gs ← gammaList alpha
  pure (gs.map fun g => g / gs.sum)

/- ### Residual bookkeeping of the outer sweep (`tdlmm_Cpp.cpp` 824-859) -/

/-- State of the outer-sweep residual bookkeeping: running residual `R`,
per-tree-pair contribution columns `Rmat` (column `t` is the fit of tree
pair `t`), and the running total fit `fhat`.  Response-length vectors live
in an arbitrary additive commutative group standing for `Eigen::VectorXd`. -/
structure SweepSt (V : Type) where
  R : V
  Rmat : ℕ → V
  fhat : V

/-- Effect on the residual bookkeeping of one `tdlmmTreeMCMC(t, ...)` call
followed by the loop body at `tdlmm_Cpp.cpp` lines 851-856: the call
rewrites `Rmat.col(t)` to the pair's new contribution (line 494, abstracted
as `newC t`), the driver adds `Rmat.col(t)` to `fhat` and, when `t` is not
the last tree, advances `R` by `Rmat.col(t+1) - Rmat.col(t)`. -/
def treeStep {V : Type} [AddCommGroup V] (newC : ℕ → V) (nTrees t : ℕ)
    (st : SweepSt V) : SweepSt V :=
  let Rmat := Function.update st.Rmat t (newC t)
  { R := if t < nTrees - 1 then st.R + Rmat (t + 1) - Rmat t else st.R
    Rmat := Rmat
    fhat := st.fhat + Rmat t }

/-- Run the first `t` tree-pair steps of one sweep. -/
def runSteps {V : Type} [AddCommGroup V] (newC : ℕ → V) (nTrees : ℕ) :
    ℕ → SweepSt V → SweepSt V
  | 0, st => st
  | t + 1, st => treeStep newC nTrees t (runSteps newC nTrees t st)

/-- Sweep-start reset (`tdlmm_Cpp.cpp` lines 835-836): add the first tree
pair's previous contribution back into `R` and zero the running fit. -/
def sweepInit {V : Type} [AddCommGroup V] (st : SweepSt V) : SweepSt V :=
  ⟨st.R + st.Rmat 0, st.Rmat, 0⟩

/-- One full sweep of the residual bookkeeping (`tdlmm_Cpp.cpp` 835-859):
reset, run every tree-pair step, then recompute `R = Ystar - fhat`. -/
def sweepResid {V : Type} [AddCommGroup V] (Ystar : V) (newC : ℕ → V) (nTrees : ℕ)
    (st : SweepSt V) : SweepSt V :=
  let st2 := runSteps newC nTrees nTrees (sweepInit st)
  ⟨Ystar - st2.fhat, st2.Rmat, st2.fhat⟩

/- ### The modelled sampler state (`tdlmm_Cpp.cpp` / `tdlmmTreeMCMC`) -/

/-- Tree-pair state tracked by the sweep model: terminal-node counts of the
two trees, their exposure indices, and the pair variance scale `tau(t)`. -/
structure PairSt where
  n1 : ℕ
  n2 : ℕ
  e1 : ℕ
  e2 : ℕ
  tau : ℚ

/-- One row of the `TreeAccept` diagnostics log
(`acc << which, step, success, m, term.size(), stepMhr, ratio`). -/
structure AccRec where
  which : ℕ
  step : ℕ
  success : ℕ
  mExp : ℕ
  nTerm : ℕ
  stepMhr : ℚ
  mhRatio : ℚ

/-- Sampler state threaded through the modelled sweep: the tree pairs, the
exposure-selection probabilities, the per-sweep exposure usage counts, the
per-exposure variance scales, the global scale `nu`, and the `TreeAccept`
log. -/
structure MSt where
  pairs : List PairSt
  expProb : List ℚ
  expCount : List ℕ
  muExp : List ℚ
  nu : ℚ
  trace : List AccRec

/-- Modelled from the spec: configuration of `tdlmm_Cpp` together with
deterministic oracles abstracting the repository subroutines whose code is
not among the two translated source files (`tdlmProposeTree` as `propose`,
`tdlmModelEst` as a fixed number `nEstDraws` of consumed draws, the node
bookkeeping of `Node`/`exposureDat`) and the dense linear algebra of
`mixMHR` (whose acceptance statistics enter only through the log-MH-ratio
oracle `accRatio`, and whose `rnorm(pXd)` coefficient draw consumes one
stream entry per design column). -/
structure MCfg where
  nTrees : ℕ
  nExp : ℕ
  iter : ℕ
  burn : ℕ
  stepProb : List ℚ
  modKappa : ℚ
  shrinkage : ℕ
  interaction : ℕ
  diagnostics : Bool
  nInitDraws : ℕ
  nEstDraws : ℕ
  propose : ℕ → ℕ → DrawM (Bool × ℚ × ℕ)
  accRatio : ℕ → ℕ → ℕ → ℕ → ℕ → ℚ
  tauB : ℕ → ℚ
  nuB : ℚ
  muB : ℕ → ℚ
  mixArgs : ℕ → ℕ → ℚ × ℚ × ℚ

/-- Whether the interaction block is active for exposures `e1`, `e2`
(`tdlmm_Cpp.cpp` lines 209-214: interaction enabled, and either
self-interactions allowed or the exposures differ; the `muMix` scale itself
is modelled as nonzero). -/
def mixOn (cfg : MCfg) (e1 e2 : ℕ) : Bool :=
  decide (cfg.interaction ≠ 0 ∧ (cfg.interaction = 2 ∨ e1 ≠ e2))

/-- Number of columns of the local design matrix for a tree pair with `n1`
and `n2` terminal nodes (`mixMHR`: `pXd = pX1 + pX2 (+ pX1*pX2)`). -/
def pXdCount (cfg : MCfg) (n1 n2 e1 e2 : ℕ) : ℕ :=
  n1 + n2 + if mixOn cfg e1 e2 then n1 * n2 else 0

/-- `tdlmm_Cpp.cpp` lines 227-229 and 349-351: a grow/prune/change draw on a
tree with a single terminal node falls back to a grow move (`step = 0`);
a switch-exposure draw (`step = 3`) is kept. -/
def resolveStep (nTerm step : ℕ) : ℕ := if nTerm = 1 ∧ step < 3 then 0 else step

/-- `sampleInt` as a draw computation: consume the uniform draw and scan; the
out-of-bounds scan (undefined behavior in C++) is mapped to the vector
length to keep the model total. -/
def sampleIntD (probs : List ℚ) : DrawM ℕ := do
  let u ← nextD
  pure ((sampleInt probs u).getD probs.length)

/-- Increment entry `i` of a usage-count vector (`(ctr->expCount)(m)++`). -/
def bump (l : List ℕ) (i : ℕ) : List ℕ := l.set i (l.getD i 0 + 1)

/-- Modelled from the spec and `tdlmmTreeMCMC`: the structural branch of one
tree update (`step < 3`): run the `tdlmProposeTree` oracle, evaluate
`mixMHR` for the current structure (one normal draw per design column),
and, if a proposal was staged, evaluate `mixMHR` for the candidate and
accept iff the realized `log(runif(0,1))` draw is below the oracle log-MH
ratio.  Returns the new terminal count, the (unchanged) exposure, and the
`TreeAccept` record; the C++ `ratio` variable is uninitialized when no
proposal was staged, and the model records 0 there. -/
def structBranch (cfg : MCfg) (t side selfN selfE otherN otherE step : ℕ) :
    DrawM (ℕ × ℕ × AccRec) := do
  let pr ← cfg.propose selfN step
  let _ ← drawN (pXdCount cfg selfN otherN selfE otherE)
  if pr.1 then do
    let _ ← drawN (pXdCount cfg pr.2.2 otherN selfE otherE)
    let a ← nextD
    if a < cfg.accRatio side t step selfN pr.2.2 then
      pure (pr.2.2, selfE, ⟨side, step, 2, selfE, pr.2.2, pr.2.1, cfg.accRatio side t step selfN pr.2.2⟩)
    else
      pure (selfN, selfE, ⟨side, step, 1, selfE, selfN, pr.2.1, cfg.accRatio side t step selfN pr.2.2⟩)
  else
    pure (selfN, selfE, ⟨side, step, 0, selfE, selfN, pr.2.1, 0⟩)

/-- Modelled from the spec and `tdlmmTreeMCMC`: the switch-exposure branch
(`step = 3`): draw a candidate exposure from `expProb`, evaluate `mixMHR`
for the current structure, and, when the candidate differs from the current
exposure, evaluate the candidate (same tree shape, new exposure and
interaction scale) and accept with the oracle log-MH ratio. -/
def switchBranch (cfg : MCfg) (t side : ℕ) (expProb : List ℚ)
    (selfN selfE otherN otherE step : ℕ) : DrawM (ℕ × ℕ × AccRec) := do
  let newE ← sampleIntD expProb
  let _ ← drawN (pXdCount cfg selfN otherN selfE otherE)
  if newE ≠ selfE then do
    let _ ← drawN (pXdCount cfg selfN otherN newE otherE)
    let a ← nextD
    if a < cfg.accRatio side t step selfN selfN then
      pure (selfN, newE, ⟨side, step, 2, newE, selfN, 0, cfg.accRatio side t step selfN selfN⟩)
    else
      pure (selfN, selfE, ⟨side, step, 1, selfE, selfN, 0, cfg.accRatio side t step selfN selfN⟩)
  else
    pure (selfN, selfE, ⟨side, step, 0, selfE, selfN, 0, 0⟩)

/-- Modelled from the spec and `tdlmmTreeMCMC`: one of the two symmetric tree
updates — draw the move type (`sampleInt(stepProb, 1)`), apply the
single-terminal-node fallback, then run the structural or the
switch-exposure branch. -/
def treeSide (cfg : MCfg) (t side : ℕ) (expProb : List ℚ)
    (selfN selfE otherN otherE : ℕ) : DrawM (ℕ × ℕ × AccRec) := do
  let drawn ← sampleIntD cfg.stepProb
  if resolveStep selfN drawn < 3 then
    structBranch cfg t side selfN selfE otherN otherE (resolveStep selfN drawn)
  else
    switchBranch cfg t side expProb selfN selfE otherN otherE (resolveStep selfN drawn)

/-- Total terminal-count statistic of one pair
(`totTerm = nTerm1 + nTerm2 (+ nTerm1*nTerm2)`), as fed to the pair-scale
half-Cauchy update. -/
def totTermOf (cfg : MCfg) (n1 n2 e1 e2 : ℕ) : ℚ := (pXdCount cfg n1 n2 e1 e2 : ℚ)

/-- Pair-scale update (`tdlmm_Cpp.cpp` lines 461-462): when `shrinkage > 1`,
redraw `tau(t)` through the half-Cauchy full conditional. -/
def tauStep (cfg : MCfg) (t n1 n2 e1 e2 : ℕ) (tau : ℚ) : DrawM ℚ :=
  if 1 < cfg.shrinkage then do
    let out ← rHalfCauchyFC tau (totTermOf cfg n1 n2 e1 e2) (cfg.tauB t) false
    pure out.x2
  else pure tau

/-- Modelled from the spec and `tdlmmTreeMCMC`: one full tree-pair step —
update tree 1, update tree 2 (against tree 1's possibly-updated state),
redraw the pair scale, bump the per-exposure usage counts, and append the
two `TreeAccept` records when diagnostics are on. -/
def treePairStep (cfg : MCfg) (t : ℕ) (st : MSt) (p : PairSt) : DrawM (PairSt × MSt) := do
  let r1 ← treeSide cfg t 1 st.expProb p.n1 p.e1 p.n2 p.e2
  let r2 ← treeSide cfg t 2 st.expProb p.n2 p.e2 r1.1 r1.2.1
  let tau ← tauStep cfg t r1.1 r2.1 r1.2.1 r2.2.1 p.tau
  pure (⟨r1.1, r2.1, r1.2.1, r2.2.1, tau⟩,
    { st with
      expCount := bump (bump st.expCount r1.2.1) r2.2.1
      trace := if cfg.diagnostics then st.trace ++ [r1.2.2, r2.2.2] else st.trace })

/-- Iterate `treePairStep` over all tree pairs (`for (t = 0; t < nTrees; ++t)`). -/
def pairsLoop (cfg : MCfg) : ℕ → List PairSt → MSt → DrawM (List PairSt × MSt)
  | _, [], st => pure ([], st)
  | t, p :: ps, st => do
      let r ← treePairStep cfg t st p
      let rest ← pairsLoop cfg (t + 1) ps r.2
      pure (r.1 :: rest.1, rest.2)

/-- Total terminal-count statistic over all pairs (`ctr->totTerm`). -/
def totTermAll (cfg : MCfg) (ps : List PairSt) : ℚ :=
  ((ps.map fun p => pXdCount cfg p.n1 p.n2 p.e1 p.e2).sum : ℕ)

/-- Per-exposure terminal-count accumulator (`ctr->totTermExp(m)`), recovered
from the post-update pairs: each pair contributes `nTerm1` to its first
exposure and `nTerm2` to its second. -/
def totTermExpOf (ps : List PairSt) (e : ℕ) : ℚ :=
  ((ps.map fun p => (if p.e1 = e then p.n1 else 0) + (if p.e2 = e then p.n2 else 0)).sum : ℕ)

/-- Modelled from the spec: interaction-scale updates of row `i`
(`tdlmm_Cpp.cpp` lines 881-888): for each `j` from `i` to `nExp - 1` with
`j > i` or self-interactions enabled, one half-Cauchy redraw of
`muMix(j, i)` (its arguments supplied by the `mixArgs` oracle; the scale
itself is not tracked by the model state). -/
def mixRowGo (cfg : MCfg) (i : ℕ) : List ℕ → DrawM Unit
  | [] => pure ()
  | j :: js => do
      if i < j ∨ cfg.interaction = 2 then do
        let _ ← rHalfCauchyFC (cfg.mixArgs j i).1 (cfg.mixArgs j i).2.1 (cfg.mixArgs j i).2.2 false
        mixRowGo cfg i js
      else
        mixRowGo cfg i js

/-- Interaction-scale updates of row `i`, gated on the interaction mode. -/
def mixRow (cfg : MCfg) (i : ℕ) : DrawM Unit :=
  if cfg.interaction ≠ 0 then mixRowGo cfg i (List.range' i (cfg.nExp - i)) else pure ()

/-- Per-exposure shrinkage updates (`tdlmm_Cpp.cpp` lines 876-890): for each
exposure `i`, redraw `muExp(i)` through the half-Cauchy full conditional,
then run the interaction-row updates. -/
def muLoop (cfg : MCfg) (ps : List PairSt) : List ℕ → List ℚ → DrawM (List ℚ)
  | [], mus => pure mus
  | i :: is, mus => do
      let out ← rHalfCauchyFC (mus.getD i 1) (totTermExpOf ps i) (cfg.muB i) false
      let _ ← mixRow cfg i
      muLoop cfg ps is (mus.set i out.x2)

/-- Modelled from the spec: the part of one MCMC sweep before the
exposure-probability update — reset the per-sweep usage counts, update all
tree pairs, run the external `tdlmModelEst` refit (consuming its draws),
redraw the global scale `nu`, and, when `shrinkage` is 1 or 3, redraw the
per-exposure (and per-exposure-pair) scales. -/
def sweepPre (cfg : MCfg) (st : MSt) : DrawM MSt := do
  let r ← pairsLoop cfg 0 st.pairs { st with expCount := List.replicate cfg.nExp 0 }
  let _ ← drawN cfg.nEstDraws
  let nuOut ← rHalfCauchyFC r.2.nu (totTermAll cfg r.1) cfg.nuB false
  if cfg.shrinkage = 3 ∨ cfg.shrinkage = 1 then do
    let mus ← muLoop cfg r.1 (List.range cfg.nExp) r.2.muExp
    pure { r.2 with pairs := r.1, nu := nuOut.x2, muExp := mus }
  else
    pure { r.2 with pairs := r.1, nu := nuOut.x2 }

/-- `tdlmm_Cpp.cpp` lines 893-896: when the iteration counter `b` exceeds
1000 or half the burn-in length, redraw the exposure-selection probability
vector as a Dirichlet draw with parameters `expCount + modKappa`; otherwise
leave it unchanged. -/
def expProbStep (cfg : MCfg) (b : ℕ) (st : MSt) : DrawM MSt :=
  if 1000 < b ∨ (1/2 : ℚ) * cfg.burn < (b : ℚ) then do
    let ps ← rDirichletD (st.expCount.map fun k => (k : ℚ) + cfg.modKappa)
    pure { st with expProb := ps }
  else
    pure st

/-- One full modelled sweep with iteration counter `b`. -/
def sweepIter (cfg : MCfg) (b : ℕ) (st : MSt) : DrawM MSt := do
  let st1 ← sweepPre cfg st
  expProbStep cfg b st1

/-- The MCMC loop: `k` remaining sweeps starting at iteration counter `b`. -/
def iterLoop (cfg : MCfg) : ℕ → ℕ → MSt → DrawM MSt
  | _, 0, st => pure st
  | b, k + 1, st => do
      let st' ← sweepIter cfg b st
      iterLoop cfg (b + 1) k st'

/-- Modelled from the spec: initial exposure assignment of the tree pairs
(`tdlmm_Cpp.cpp` lines 719-728): two `sampleInt(expProb)` draws per pair;
every tree starts as a single root (one terminal node) with `tau = 1`. -/
def initPairs (expProb0 : List ℚ) : ℕ → DrawM (List PairSt)
  | 0 => pure []
  | k + 1 => do
      let e1 ← sampleIntD expProb0
      let e2 ← sampleIntD expProb0
      let ps ← initPairs expProb0 k
      pure (⟨1, 1, e1, e2, 1⟩ :: ps)

/-- Modelled from the spec: initial pair-scale draws (`tdlmm_Cpp.cpp` lines
806-809): when `shrinkage > 1`, one `rHalfCauchyFC(tau(t), 0, 0)` per pair. -/
def initTaus (cfg : MCfg) : List PairSt → DrawM (List PairSt)
  | [] => pure []
  | p :: ps => do
      let tau ←
        if 1 < cfg.shrinkage then do
          let out ← rHalfCauchyFC p.tau 0 0 false
          pure out.x2
        else pure p.tau
      let ps' ← initTaus cfg ps
      pure ({ p with tau := tau } :: ps')

/-- Modelled from the spec: initialization of `tdlmm_Cpp` before the MCMC
loop — initial normal draws for the fixed-effect coefficients, the initial
exposure assignments, the initial `tdlmModelEst` call, the initial `nu`
half-Cauchy draw (`rHalfCauchyFC(nu, nTrees, 0)` from `nu = 1`), and the
initial pair-scale draws. -/
def tdlmmInit (cfg : MCfg) (expProb0 : List ℚ) : DrawM MSt := do
  let _ ← drawN cfg.nInitDraws
  let ps ← initPairs expProb0 cfg.nTrees
  let _ ← drawN cfg.nEstDraws
  let nuOut ← rHalfCauchyFC 1 (cfg.nTrees : ℚ) 0 false
  let ps' ← initTaus cfg ps
  pure ⟨ps', expProb0, List.replicate cfg.nExp 0, List.replicate cfg.nExp 1, nuOut.x2, []⟩

/-- Modelled from the spec: the full `tdlmm_Cpp` sampler as a function of the
configuration, the initial exposure-selection probabilities, and the
realized draw stream — initialization followed by `iter + burn` sweeps with
iteration counter starting at 1; the final state carries the `TreeAccept`
log and the returned diagnostics tracked by the model. -/
def tdlmmRun (cfg : MCfg) (expProb0 : List ℚ) : DrawM MSt := do
  let st0 ← tdlmmInit cfg expProb0
  iterLoop cfg 1 (cfg.iter + cfg.burn) st0

/- ### Determinism predicates for draw computations -/

/-- The cursor never moves backwards. -/
def CursorMono {α : Type} (m : DrawM α) : Prop := ∀ s c, c ≤ (m s c).2

/-- The computation depends only on the slice of the stream it consumes:
two streams agreeing between the starting and the final cursor give
identical results (value and final cursor). -/
def StreamDet {α : Type} (m : DrawM α) : Prop :=
  ∀ s1 s2 c, (∀ i, c ≤ i → i < (m s1 c).2 → s1 i = s2 i) → m s1 c = m s2 c

/-- A well-behaved draw computation: monotone cursor and prefix-determined. -/
def DetM {α : Type} (m : DrawM α) : Prop := CursorMono m ∧ StreamDet m

/-- Configurations whose proposal oracle is a well-behaved draw computation. -/
def CfgOK (cfg : MCfg) : Prop := ∀ n k, DetM (cfg.propose n k)

/- ### `mixMHR` design-matrix assembly (`tdlmm_Cpp.cpp` 37-105) -/

/-- A design column (`Eigen::VectorXd`), as its list of entries. -/
abbrev Col : Type := List ℚ

/-- Elementwise product of two design columns
(`(nodes1[i]->X).array() * (nodes2[j]->X).array()`). -/
def colMul (c1 c2 : Col) : Col := List.zipWith (fun a b => a * b) c1 c2

/-- The interaction block of `mixMHR`: columns `k = pX1 + pX2 + i*pX2 + j`
in row-major loop order (`i` outer over tree 1, `j` inner over tree 2). -/
def interCols (X1 X2 : List Col) : List Col :=
  X1.flatMap fun c1 => X2.map fun c2 => colMul c1 c2

/-- `mixMHR` design-matrix assembly: one column per terminal node of tree 1,
then one per terminal node of tree 2, then — exactly when `mixVar` is
nonzero — the interaction columns. -/
def mixMHR_Xd (X1 X2 : List Col) (mixVar : ℚ) : List Col :=
  X1 ++ X2 ++ (if mixVar ≠ 0 then interCols X1 X2 else [])

/-- `mixMHR` prior-precision diagonal: `1/(m1Var*treeVar)` for tree-1
columns, `1/(m2Var*treeVar)` for tree-2 columns, and — exactly when
`mixVar` is nonzero — `1/(mixVar*treeVar)` for the interaction columns. -/
def mixMHR_diagVar (p1 p2 : ℕ) (treeVar m1Var m2Var mixVar : ℚ) : List ℚ :=
  List.replicate p1 (1 / (m1Var * treeVar)) ++
    List.replicate p2 (1 / (m2Var * treeVar)) ++
    (if mixVar ≠ 0 then List.replicate (p1 * p2) (1 / (mixVar * treeVar)) else [])

/-- A tiny concrete configuration instantiating the modelled sampler: one
tree pair, one exposure, one iteration, no burn-in, trivial oracles. -/
def cfgW : MCfg where
  nTrees := 1
  nExp := 1
  iter := 1
  burn := 0
  stepProb := [1]
  modKappa := 1
  shrinkage := 0
  interaction := 0
  diagnostics := true
  nInitDraws := 2
  nEstDraws := 1
  propose := fun _ _ => pure (false, 0, 1)
  accRatio := fun _ _ _ _ _ => 0
  tauB := fun _ => 0
  nuB := 0
  muB := fun _ => 0
  mixArgs := fun _ _ => (1, 0, 0)

/- ### Helper lemmas: the `sampleInt` scan -/

/-- Unfolding of `>>=` on draw computations. -/
theorem bind_apply {α β : Type} (m : DrawM α) (f : α → DrawM β) (s : ℕ → ℚ) (c : ℕ) :
    (m >>= f) s c = f (m s c).1 s (m s c).2 := rfl

/-- Unfolding of `pure` on draw computations. -/
theorem pure_apply {α : Type} (a : α) (s : ℕ → ℚ) (c : ℕ) :
    (pure a : DrawM α) s c = (a, c) := rfl

/-- Unfolding of `nextD`. -/
theorem nextD_apply (s : ℕ → ℚ) (c : ℕ) : nextD s c = (s c, c + 1) := rfl

/-- When the draw `u` is covered by the remaining mass, the scan stops at the
least number `k` of further entries whose partial sum reaches `u`. -/
theorem scanFrom_exists (u : ℚ) :
    ∀ (rest : List ℚ) (sum : ℚ) (i : ℕ), u ≤ sum + rest.sum →
      ∃ k, scanFrom u sum i rest = some (i + k) ∧ k ≤ rest.length ∧
        u ≤ sum + (rest.take k).sum ∧ ∀ m, m < k → sum + (rest.take m).sum < u := by
  intro rest
  induction rest with
  | nil =>
      intro sum i h
      have hs : ¬ sum < u := not_lt.mpr (by simpa using h)
      exact ⟨0, by simp [scanFrom, hs], by simp, by simpa using h,
        fun m hm => absurd hm (by omega)⟩
  | cons p r ih =>
      intro sum i h
      by_cases hs : sum < u
      · obtain ⟨k, hk, hkle, hkge, hmin⟩ := ih (sum + p) (i + 1) (by
          have hsum : sum + (p :: r).sum = (sum + p) + r.sum := by
            simp [List.sum_cons]; ring
          linarith [h, hsum.ge])
        refine ⟨k + 1, ?_, by simpa using Nat.succ_le_succ hkle, ?_, ?_⟩
        · have : scanFrom u sum i (p :: r) = scanFrom u (sum + p) (i + 1) r := by
            simp [scanFrom, hs]
          rw [this, hk]
          congr 1
          omega
        · simpa [List.take_succ_cons, List.sum_cons, add_assoc] using hkge
        · intro m hm
          match m with
          | 0 => simpa using hs
          | m' + 1 =>
              have := hmin m' (by omega)
              simpa [List.take_succ_cons, List.sum_cons, add_assoc] using this
      · exact ⟨0, by simp [scanFrom, hs], by simp, by simpa using not_lt.mp hs,
          fun m hm => absurd hm (by omega)⟩

/-- When every partial sum stays below the draw, the scan runs out of bounds. -/
theorem scanFrom_oob (u : ℚ) :
    ∀ (rest : List ℚ) (sum : ℚ) (i : ℕ),
      (∀ k, k ≤ rest.length → sum + (rest.take k).sum < u) →
      scanFrom u sum i rest = none := by
  intro rest
  induction rest with
  | nil =>
      intro sum i h
      have h0 := h 0 (by simp)
      simp only [List.take_nil, List.sum_nil, add_zero] at h0
      simp [scanFrom, h0]
  | cons p r ih =>
      intro sum i h
      have h0 := h 0 (by simp)
      have hs : sum < u := by simpa using h0
      have hstep : scanFrom u sum i (p :: r) = scanFrom u (sum + p) (i + 1) r := by
        simp [scanFrom, hs]
      rw [hstep]
      refine ih _ _ (fun k hk => ?_)
      have := h (k + 1) (by simpa using Nat.succ_le_succ hk)
      simpa [List.take_succ_cons, List.sum_cons, add_assoc] using this

/-- With nonnegative entries, a prefix sum is at most the full sum. -/
theorem take_sum_le {l : List ℚ} (hl : ∀ p ∈ l, 0 ≤ p) (k : ℕ) :
    (l.take k).sum ≤ l.sum := by
  have hsplit : (l.take k).sum + (l.drop k).sum = l.sum := by
    rw [← List.sum_append, List.take_append_drop]
  have hd : 0 ≤ (l.drop k).sum :=
    List.sum_nonneg (fun x hx => hl x (List.mem_of_mem_drop hx))
  linarith

/- ### Claims C8 and C10: `sampleInt` -/

/-- Claim C8: `sampleInt` returns the least index whose cumulative
probability sum is at least the uniform draw `u` taken from `[0, totP)`
(when the vector's mass covers `totP`); on `probs = [0.2, 0.3, 0.5]` with
`totP = 1` it returns index 1 for a forced draw of 0.25 and index 0 for a
forced draw of 0.1. -/
theorem sampleInt_spec (probs : List ℚ) (u totP : ℚ) (hne : probs ≠ [])
    (hu0 : 0 ≤ u) (hu : u < totP) (ht : totP ≤ probs.sum) :
    (∃ j, sampleInt probs u = some j ∧ u ≤ (probs.take (j + 1)).sum ∧
      ∀ m, m < j → (probs.take (m + 1)).sum < u) ∧
    sampleInt [2/10, 3/10, 5/10] (25/100) = some 1 ∧
    sampleInt [2/10, 3/10, 5/10] (1/10) = some 0 := by
  refine ⟨?_, by norm_num [sampleInt, scanFrom], by norm_num [sampleInt, scanFrom]⟩
  match probs, hne, ht with
  | p :: rest, _, ht =>
    have hsum : u ≤ p + rest.sum := by
      have h2 : totP ≤ p + rest.sum := by simpa [List.sum_cons] using ht
      linarith
    obtain ⟨k, hk, _, hkge, hmin⟩ := scanFrom_exists u rest p 0 hsum
    refine ⟨k, by simpa [sampleInt] using hk, ?_, ?_⟩
    · simpa [List.take_succ_cons, List.sum_cons] using hkge
    · intro m hm
      have := hmin m hm
      simpa [List.take_succ_cons, List.sum_cons] using this

/-- Witness for C8: the general statement applied at
`probs = [0.2, 0.3, 0.5]`, `u = 0.25`, `totP = 1`. -/
theorem sampleInt_spec_witness :
    (([2/10, 3/10, 5/10] : List ℚ) ≠ [] ∧ (0:ℚ) ≤ 25/100 ∧ (25/100 : ℚ) < 1 ∧
      (1:ℚ) ≤ ([2/10, 3/10, 5/10] : List ℚ).sum) ∧
    (∃ j, sampleInt [2/10, 3/10, 5/10] (25/100) = some j ∧
      (25/100 : ℚ) ≤ (([2/10, 3/10, 5/10] : List ℚ).take (j + 1)).sum ∧
      ∀ m, m < j → (([2/10, 3/10, 5/10] : List ℚ).take (m + 1)).sum < 25/100) :=
  ⟨⟨by simp, by norm_num, by norm_num, by norm_num⟩,
    (sampleInt_spec [2/10, 3/10, 5/10] (25/100) 1 (by simp) (by norm_num)
      (by norm_num) (by norm_num)).1⟩

/-- Claim C10: with a nonempty nonnegative probability vector whose total
mass is at least `totP > 0`, every access of the cumulative scan is within
bounds and the returned index is below the vector length; without that
precondition (total mass below `totP`) there is a draw in `[0, totP)` for
which the scan runs past the end of the vector. -/
theorem sampleInt_safe (probs : List ℚ) (totP : ℚ) (hne : probs ≠ [])
    (hnn : ∀ p ∈ probs, 0 ≤ p) (hpos : 0 < totP) :
    (totP ≤ probs.sum → ∀ u, 0 ≤ u → u < totP →
      ∃ j, sampleInt probs u = some j ∧ j < probs.length) ∧
    (probs.sum < totP → ∃ u, 0 ≤ u ∧ u < totP ∧ sampleInt probs u = none) := by
  constructor
  · intro hts u hu0 hu
    match probs, hne, hts with
    | p :: rest, _, hts =>
      have hsum : u ≤ p + rest.sum := by
        have h2 : totP ≤ p + rest.sum := by simpa [List.sum_cons] using hts
        linarith
      obtain ⟨k, hk, hkle, _, _⟩ := scanFrom_exists u rest p 0 hsum
      refine ⟨k, by simpa [sampleInt] using hk, ?_⟩
      simp only [List.length_cons]
      omega
  · intro hlt
    refine ⟨(probs.sum + totP) / 2, ?_, by linarith, ?_⟩
    · have : 0 ≤ probs.sum := List.sum_nonneg hnn
      linarith
    · match probs, hnn, hlt with
      | p :: rest, hnn, hlt =>
        show scanFrom (((p :: rest).sum + totP) / 2) p 0 rest = none
        apply scanFrom_oob
        intro k hk
        have h1 : (rest.take k).sum ≤ rest.sum :=
          take_sum_le (fun q hq => hnn q (List.mem_cons_of_mem p hq)) k
        have hSdef : (p :: rest).sum = p + rest.sum := by simp [List.sum_cons]
        rw [List.sum_cons] at hlt ⊢
        linarith

/-- Witness for C10: both directions applied at concrete vectors —
`[1, 1]` with `totP = 2` (in bounds) and `[1]` with `totP = 2` (some draw
runs out of bounds). -/
theorem sampleInt_safe_witness :
    (∃ j, sampleInt [1, 1] 1 = some j ∧ j < 2) ∧
    (∃ u, 0 ≤ u ∧ u < 2 ∧ sampleInt [1] u = none) := by
  constructor
  · have h := (sampleInt_safe [1, 1] 2 (by simp) (by norm_num) (by norm_num)).1
      (by norm_num) 1 (by norm_num) (by norm_num)
    simpa using h
  · have h := (sampleInt_safe [1] 2 (by simp) (by norm_num) (by norm_num)).2 (by norm_num)
    simpa using h

/- ### Claim C3: `intersectAndDiff` -/

/-- The loop conserves the original elements: the concatenation of
intersection and difference is a permutation of `origVec`. -/
theorem iadLoop_perm : ∀ (os ns : List ℤ), ((iadLoop os ns).1 ++ (iadLoop os ns).2).Perm os := by
  intro os ns
  induction os, ns using iadLoop.induct with
  | case1 ns => simp [iadLoop]
  | case2 o os => simp [iadLoop]
  | case3 o os n ns h ih =>
      rw [iadLoop, if_pos h]
      refine (List.perm_middle).trans ?_
      exact ih.cons o
  | case4 os n ns h ih =>
      rw [iadLoop, if_neg h, if_pos rfl]
      simpa using ih.cons n
  | case5 o os n ns h1 h2 ih =>
      rw [iadLoop, if_neg h1, if_neg h2]
      exact ih

/-- Claim C3: for sorted integer vectors, `intersection ++ difference` is a
permutation (multiset equality) of `origVec`; on `origVec = [1,2,3,4,5]` and
`newVec = [2,4,6]` the result is `([2,4], [1,3,5])`; and when either input
is empty the intersection is empty and the difference equals `origVec`. -/
theorem intersectAndDiff_spec (origVec newVec : List ℤ)
    (ho : List.Sorted (· ≤ ·) origVec) (hn : List.Sorted (· ≤ ·) newVec) :
    ((intersectAndDiff origVec newVec).1 ++ (intersectAndDiff origVec newVec).2).Perm origVec ∧
    intersectAndDiff [1, 2, 3, 4, 5] [2, 4, 6] = ([2, 4], [1, 3, 5]) ∧
    ((origVec = [] ∨ newVec = []) → (intersectAndDiff origVec newVec).1 = [] ∧
      (intersectAndDiff origVec newVec).2 = origVec) := by
  refine ⟨?_, ?_, ?_⟩
  case refine_2 =>
    rw [intersectAndDiff, if_neg (by simp), if_neg (by simp)]
    norm_num [iadLoop]
  · unfold intersectAndDiff
    split
    · simp_all
    · split
      · simp_all
      · exact iadLoop_perm origVec newVec
  · intro h
    unfold intersectAndDiff
    rcases h with h | h
    · simp [h]
    · subst h
      split
      · simp_all
      · simp

/-- Witness for C3: the statement applied at the sorted vectors
`origVec = [1,2,3,4,5]`, `newVec = [2,4,6]`. -/
theorem intersectAndDiff_spec_witness :
    ((intersectAndDiff [1, 2, 3, 4, 5] [2, 4, 6]).1 ++
      (intersectAndDiff [1, 2, 3, 4, 5] [2, 4, 6]).2).Perm [1, 2, 3, 4, 5] :=
  (intersectAndDiff_spec [1, 2, 3, 4, 5] [2, 4, 6]
    (by decide) (by decide)).1

/- ### Claim C9: `logDirichletDensity` -/

/-- An additive fold over `List.range n` is the starting value plus the
indexed sum. -/
theorem foldl_add_range (f : ℕ → ℚ) (init : ℚ) (n : ℕ) :
    (List.range n).foldl (fun out i => out + f i) init =
      init + ∑ i ∈ Finset.range n, f i := by
  induction n generalizing init with
  | zero => simp
  | succ n ih =>
      rw [List.range_succ, List.foldl_append, ih, Finset.sum_range_succ]
      simp [add_assoc]

/-- Claim C9: `logDirichletDensity(x, alpha)` aborts with a fatal error and
produces no result exactly when `x` and `alpha` have different lengths;
when the lengths agree it returns `lgamma(alpha.sum)` plus the sum over `i`
of `(alpha_i - 1) * log(x_i) - lgamma(alpha_i)` (the pure function leaves
its inputs unchanged by construction). -/
theorem logDirichletDensity_spec (lgam lg : ℚ → ℚ) (x alpha : List ℚ) :
    ((∃ e, logDirichletDensity lgam lg x alpha = Except.error e) ↔
      x.length ≠ alpha.length) ∧
    (x.length = alpha.length →
      logDirichletDensity lgam lg x alpha = Except.ok (lgam alpha.sum +
        ∑ i ∈ Finset.range alpha.length,
          ((alpha.getD i 0 - 1) * lg (x.getD i 0) - lgam (alpha.getD i 0)))) := by
  constructor
  · constructor
    · rintro ⟨e, he⟩
      by_contra hlen
      simp only [logDirichletDensity, if_neg (not_not_intro hlen)] at he
      exact Except.noConfusion he
    · intro hlen
      exact ⟨"logDirichletDensity incorrect size", by simp [logDirichletDensity, hlen]⟩
  · intro hlen
    simp only [logDirichletDensity, if_neg (not_not_intro hlen)]
    rw [foldl_add_range]

/-- Witness for C9: the equal-length part applied at `x = [1/2]`,
`alpha = [2]` with both transcendental oracles the identity. -/
theorem logDirichletDensity_spec_witness :
    logDirichletDensity id id [1/2] [2] = Except.ok (id ((2:ℚ)) +
      ∑ i ∈ Finset.range 1,
        ((([2] : List ℚ).getD i 0 - 1) * id (([1/2] : List ℚ).getD i 0) -
          id (([2] : List ℚ).getD i 0))) := by
  have h := (logDirichletDensity_spec id id [1/2] [2]).2 (by simp)
  simpa using h

/- ### Claim C2: `rHalfCauchyFC` -/

/-- In a field, `2 / (2*z) = 1 / z` (both sides are 0 at `z = 0`). -/
theorem two_div_two_mul (z : ℚ) : 2 / (2 * z) = 1 / z := by
  rcases eq_or_ne z 0 with rfl | hz
  · simp
  · field_simp

/-- Counterexample for C2 as stated: at `x² = 1` the first Gamma request of
`rHalfCauchyFC`, read in shape/rate form, is Gamma(1, 2) — `x²/(x²+1)` is
passed to `R::rgamma` as a SCALE — and not Gamma(1, x²/(x²+1)) =
Gamma(1, 1/2) in shape/rate form as the claim asserts. -/
theorem rHalfCauchyFC_rate_cex :
    ((rHalfCauchyFC 1 3 5 true (fun _ => 1) 0).1.req1.toSR) ≠ ⟨1, 1 / (1 + 1)⟩ := by
  intro h
  have h2 := congrArg GammaSR.rate h
  simp only [rHalfCauchyFC, rgammaD, GammaReq.toSR, bind_apply, pure_apply,
    nextD_apply] at h2
  norm_num at h2

/-- Claim C2, amended: for every current value `x² > 0` and parameters `a`,
`b`, `rHalfCauchyFC` first draws the latent `y` from Gamma(1, x²/(x²+1)) in
shape/SCALE form (shape/rate form Gamma(1, (x²+1)/x²)), stores `y` through
the `yInv` pointer exactly when that pointer is non-null, and then replaces
`x²` by the reciprocal of a Gamma draw with shape `(a+1)/2` and scale
`1/(b/2 + y)` — i.e. by an InverseGamma((a+1)/2, 1/(b/2+y)) draw in the
source documentation's convention — consuming exactly two stream draws. -/
theorem rHalfCauchyFC_spec (x2 a b : ℚ) (hx : 0 < x2) (useY : Bool)
    (s : ℕ → ℚ) (c : ℕ) :
    ((rHalfCauchyFC x2 a b useY s c).1.req1 = ⟨1, x2 / (x2 + 1)⟩ ∧
      (rHalfCauchyFC x2 a b useY s c).1.req1.toSR = ⟨1, (x2 + 1) / x2⟩) ∧
    (rHalfCauchyFC x2 a b useY s c).1.yOut = (if useY then some (s c) else none) ∧
    ((rHalfCauchyFC x2 a b useY s c).1.req2.shape = (a + 1) / 2 ∧
      (rHalfCauchyFC x2 a b useY s c).1.req2.scale = 1 / (b / 2 + s c)) ∧
    (rHalfCauchyFC x2 a b useY s c).1.x2 = 1 / s (c + 1) ∧
    (rHalfCauchyFC x2 a b useY s c).2 = c + 2 := by
  have hrun : rHalfCauchyFC x2 a b useY s c =
      (⟨1 / s (c + 1), if useY then some (s c) else none, ⟨1, x2 / (x2 + 1)⟩,
        ⟨(1/2) * (a + 1), 2 / (b + 2 * s c)⟩⟩, c + 2) := rfl
  rw [hrun]
  refine ⟨⟨rfl, ?_⟩, rfl, ⟨by ring, ?_⟩, rfl, rfl⟩
  · show GammaReq.toSR ⟨1, x2 / (x2 + 1)⟩ = ⟨1, (x2 + 1) / x2⟩
    simp [GammaReq.toSR, one_div_div]
  · show (2 : ℚ) / (b + 2 * s c) = 1 / (b / 2 + s c)
    rw [show b + 2 * s c = 2 * (b / 2 + s c) by ring, two_div_two_mul]

/-- Witness for C2 (amended form) at `x² = 1`, `a = 3`, `b = 5`, a non-null
`yInv` pointer, and the constant-2 draw stream. -/
theorem rHalfCauchyFC_spec_witness :
    (0:ℚ) < 1 ∧ (rHalfCauchyFC 1 3 5 true (fun _ => 2) 0).1.x2 = 1 / 2 := by
  constructor
  · norm_num
  · have h := (rHalfCauchyFC_spec 1 3 5 (by norm_num) true (fun _ => 2) 0).2.2.2.1
    simpa using h

/- ### Claim C1: backfitting residual invariant -/

/-- After the first `t` tree-pair steps, column `s` of `Rmat` holds the new
contribution for `s < t` and the previous contribution for `s ≥ t`. -/
theorem runSteps_Rmat {V : Type} [AddCommGroup V] (newC : ℕ → V) (nT : ℕ)
    (st : SweepSt V) (t : ℕ) :
    (runSteps newC nT t st).Rmat = fun s => if s < t then newC s else st.Rmat s := by
  induction t with
  | zero => funext s; simp [runSteps]
  | succ t ih =>
      funext s
      simp only [runSteps, treeStep]
      rw [Function.update_apply, ih]
      by_cases h1 : s = t
      · subst h1; simp
      · by_cases h2 : s < t
        · simp [h1, h2, Nat.lt_succ_of_lt h2]
        · have h3 : ¬ s < t + 1 := by omega
          simp [h1, h2, h3]

/-- After the first `t` tree-pair steps, the running fit `fhat` is the sum of
the first `t` new contributions. -/
theorem runSteps_fhat {V : Type} [AddCommGroup V] (newC : ℕ → V) (nT : ℕ)
    (st : SweepSt V) (t : ℕ) :
    (runSteps newC nT t st).fhat = st.fhat + ∑ s ∈ Finset.range t, newC s := by
  induction t with
  | zero => simp [runSteps]
  | succ t ih =>
      simp only [runSteps, treeStep]
      rw [Function.update_same, ih, Finset.sum_range_succ]
      abel

/-- The running residual at the start of tree-pair step `t`: the
pseudo-response minus the new contributions of steps before `t` and the
previous contributions of steps after `t`. -/
theorem runSteps_R {V : Type} [AddCommGroup V] (Ystar : V) (newC : ℕ → V) (nT : ℕ)
    (st : SweepSt V) (h0 : st.R = Ystar - ∑ s ∈ Finset.range nT, st.Rmat s)
    (t : ℕ) (ht : t < nT) :
    (runSteps newC nT t (sweepInit st)).R =
      Ystar - ((∑ s ∈ Finset.range t, newC s) +
        ∑ s ∈ Finset.Ico (t + 1) nT, st.Rmat s) := by
  induction t with
  | zero =>
      simp only [runSteps, sweepInit]
      rw [h0, Finset.range_eq_Ico, Finset.sum_eq_sum_Ico_succ_bot ht]
      simp only [Finset.Ico_self, Finset.sum_empty]
      abel
  | succ t ih =>
      have ht' : t < nT := by omega
      have iht := ih ht'
      simp only [runSteps, treeStep]
      have hcond : t < nT - 1 := by omega
      rw [if_pos hcond]
      have hA : Function.update (runSteps newC nT t (sweepInit st)).Rmat t (newC t) (t + 1)
          = st.Rmat (t + 1) := by
        have h1 : ¬ (t + 1 = t) := by omega
        have h2 : ¬ (t + 1 < t) := by omega
        simp [Function.update_apply, runSteps_Rmat, sweepInit, h1, h2]
      have hB : Function.update (runSteps newC nT t (sweepInit st)).Rmat t (newC t) t
          = newC t := Function.update_same _ _ _
      rw [hA, hB, iht, Finset.sum_range_succ,
        Finset.sum_eq_sum_Ico_succ_bot (show t + 1 < nT from ht) st.Rmat]
      abel

/-- Claim C1: if the running residual at sweep start equals `Ystar` minus the
sum of all contribution columns, then at the start of every tree-pair step
`t < nTrees` the running residual equals `Ystar` minus the sum of the
current `Rmat` columns over all `s ≠ t` (new contributions for `s < t`,
previous ones for `s > t`), and after the loop `R` is recomputed as `Ystar`
minus the total fit. -/
theorem backfitting_resid {V : Type} [AddCommGroup V] (Ystar : V) (newC : ℕ → V)
    (nT : ℕ) (st : SweepSt V)
    (h0 : st.R = Ystar - ∑ s ∈ Finset.range nT, st.Rmat s) :
    (∀ t, t < nT →
      (runSteps newC nT t (sweepInit st)).R =
        Ystar - ∑ s ∈ (Finset.range nT).erase t,
          (runSteps newC nT t (sweepInit st)).Rmat s) ∧
    (sweepResid Ystar newC nT st).R = Ystar - ∑ s ∈ Finset.range nT, newC s := by
  constructor
  · intro t ht
    have hsplit : (Finset.range nT).erase t = Finset.range t ∪ Finset.Ico (t + 1) nT := by
      ext s
      simp only [Finset.mem_erase, Finset.mem_range, Finset.mem_union, Finset.mem_Ico]
      omega
    have hdisj : Disjoint (Finset.range t) (Finset.Ico (t + 1) nT) := by
      rw [Finset.disjoint_left]
      intro a ha hb
      have h1 := Finset.mem_range.mp ha
      have h2 := (Finset.mem_Ico.mp hb).1
      omega
    have hsum : ∑ s ∈ (Finset.range nT).erase t, (runSteps newC nT t (sweepInit st)).Rmat s
        = (∑ s ∈ Finset.range t, newC s) + ∑ s ∈ Finset.Ico (t + 1) nT, st.Rmat s := by
      rw [hsplit, Finset.sum_union hdisj]
      congr 1
      · refine Finset.sum_congr rfl (fun s hs => ?_)
        have h1 : s < t := Finset.mem_range.mp hs
        rw [runSteps_Rmat]
        simp [h1]
      · refine Finset.sum_congr rfl (fun s hs => ?_)
        have h1 : t + 1 ≤ s := (Finset.mem_Ico.mp hs).1
        have h2 : ¬ s < t := by omega
        rw [runSteps_Rmat]
        simp [h2, sweepInit]
    rw [hsum, runSteps_R Ystar newC nT st h0 t ht]
  · simp only [sweepResid]
    rw [runSteps_fhat]
    simp [sweepInit]

/-- Witness for C1: two tree pairs with previous contributions `s + 1`,
pseudo-response 10, start residual 7 = 10 - (1 + 2), new contributions all
5; after the sweep the residual is 10 - (5 + 5). -/
theorem backfitting_resid_witness :
    ((⟨7, fun s => (s : ℤ) + 1, 0⟩ : SweepSt ℤ).R =
      10 - ∑ s ∈ Finset.range 2, ((⟨7, fun s => (s : ℤ) + 1, 0⟩ : SweepSt ℤ).Rmat s)) ∧
    (sweepResid 10 (fun _ => (5 : ℤ)) 2 ⟨7, fun s => (s : ℤ) + 1, 0⟩).R =
      10 - ∑ s ∈ Finset.range 2, (5 : ℤ) := by
  have h0 : (⟨7, fun s => (s : ℤ) + 1, 0⟩ : SweepSt ℤ).R =
      10 - ∑ s ∈ Finset.range 2, ((⟨7, fun s => (s : ℤ) + 1, 0⟩ : SweepSt ℤ).Rmat s) := by
    show (7 : ℤ) = 10 - ∑ s ∈ Finset.range 2, ((s : ℤ) + 1)
    rw [Finset.sum_range_succ, Finset.sum_range_succ]
    norm_num
  exact ⟨h0, (backfitting_resid 10 (fun _ => (5 : ℤ)) 2 _ h0).2⟩

/- ### Claim C7: `mixMHR` design-matrix assembly -/

/-- Entry `i < n` of a replicated list. -/
theorem getD_replicate {α : Type} (a d : α) (n i : ℕ) (h : i < n) :
    (List.replicate n a).getD i d = a := by
  induction n generalizing i with
  | zero => omega
  | succ n ih =>
      match i with
      | 0 => simp [List.replicate_succ]
      | i + 1 =>
          rw [List.replicate_succ, List.getD_cons_succ]
          exact ih i (by omega)

/-- Entry `i < l.length` of a mapped list. -/
theorem getD_map' {α β : Type} (f : α → β) (l : List α) (i : ℕ) (h : i < l.length)
    (d : β) (d' : α) : (l.map f).getD i d = f (l.getD i d') := by
  rw [List.getD_eq_getElem?_getD, List.getElem?_map, List.getElem?_eq_getElem h,
    List.getD_eq_getElem?_getD, List.getElem?_eq_getElem h]
  rfl

/-- Interaction column `i * pX2 + j` is the product of tree-1 column `i`
and tree-2 column `j` (the row-major layout `k = pX1 + pX2 + i*pX2 + j`
relative to the start of the interaction block). -/
theorem interCols_getD (X1 X2 : List Col) (i j : ℕ) (hi : i < X1.length)
    (hj : j < X2.length) :
    (interCols X1 X2).getD (i * X2.length + j) [] =
      colMul (X1.getD i []) (X2.getD j []) := by
  induction X1 generalizing i with
  | nil => simp at hi
  | cons c rest ih =>
      rw [show interCols (c :: rest) X2 =
        (X2.map fun c2 => colMul c c2) ++ interCols rest X2 from rfl]
      match i with
      | 0 =>
          rw [Nat.zero_mul, Nat.zero_add,
            List.getD_append _ _ _ _ (by simpa using hj),
            getD_map' _ _ _ hj _ []]
          rfl
      | i + 1 =>
          have hlen : (X2.map fun c2 => colMul c c2).length = X2.length := by simp
          have hge : X2.length ≤ (i + 1) * X2.length + j := by
            rw [Nat.succ_mul]; omega
          rw [List.getD_append_right _ _ _ _ (by rw [hlen]; exact hge)]
          have hidx : (i + 1) * X2.length + j - (X2.map fun c2 => colMul c c2).length
              = i * X2.length + j := by
            rw [hlen, Nat.succ_mul]; omega
          rw [hidx, List.getD_cons_succ]
          exact ih i (by simpa using hi)

/-- The number of interaction columns is `pX1 * pX2`. -/
theorem interCols_length (X1 X2 : List Col) :
    (interCols X1 X2).length = X1.length * X2.length := by
  induction X1 with
  | nil => simp [interCols]
  | cons c rest ih =>
      rw [show interCols (c :: rest) X2 =
        (X2.map fun c2 => colMul c c2) ++ interCols rest X2 from rfl]
      simp [ih, Nat.succ_mul, Nat.add_comm]

/-- Claim C7: the design matrix assembled by `mixMHR` has `pX1 + pX2` columns
plus `pX1 * pX2` further columns exactly when `mixVar` is nonzero; column
`i < pX1` is tree-1 node `i`'s column, column `pX1 + j` is tree-2 node
`j`'s column, and interaction column `pX1 + pX2 + i*pX2 + j` is the
elementwise product of tree-1 column `i` and tree-2 column `j`; the prior
precision diagonal is `1/(m1Var*treeVar)`, `1/(m2Var*treeVar)` and
`1/(mixVar*treeVar)` on the three blocks. -/
theorem mixMHR_design_spec (X1 X2 : List Col) (treeVar m1Var m2Var mixVar : ℚ) :
    ((mixMHR_Xd X1 X2 mixVar).length =
        X1.length + X2.length + (if mixVar ≠ 0 then X1.length * X2.length else 0) ∧
      (mixMHR_diagVar X1.length X2.length treeVar m1Var m2Var mixVar).length =
        X1.length + X2.length + (if mixVar ≠ 0 then X1.length * X2.length else 0)) ∧
    (∀ i, i < X1.length →
      (mixMHR_Xd X1 X2 mixVar).getD i [] = X1.getD i [] ∧
      (mixMHR_diagVar X1.length X2.length treeVar m1Var m2Var mixVar).getD i 0 =
        1 / (m1Var * treeVar)) ∧
    (∀ j, j < X2.length →
      (mixMHR_Xd X1 X2 mixVar).getD (X1.length + j) [] = X2.getD j [] ∧
      (mixMHR_diagVar X1.length X2.length treeVar m1Var m2Var mixVar).getD
        (X1.length + j) 0 = 1 / (m2Var * treeVar)) ∧
    (mixVar ≠ 0 → ∀ i j, i < X1.length → j < X2.length →
      (mixMHR_Xd X1 X2 mixVar).getD (X1.length + X2.length + i * X2.length + j) [] =
        colMul (X1.getD i []) (X2.getD j []) ∧
      (mixMHR_diagVar X1.length X2.length treeVar m1Var m2Var mixVar).getD
        (X1.length + X2.length + i * X2.length + j) 0 = 1 / (mixVar * treeVar)) := by
  refine ⟨⟨?_, ?_⟩, ?_, ?_, ?_⟩
  · simp only [mixMHR_Xd, List.length_append]
    split <;> simp [interCols_length, Nat.add_assoc]
  · simp only [mixMHR_diagVar, List.length_append, List.length_replicate]
    split <;> simp [Nat.add_assoc]
  · intro i hi
    constructor
    · rw [mixMHR_Xd, List.append_assoc, List.getD_append _ _ _ _ hi]
    · rw [mixMHR_diagVar, List.append_assoc,
        List.getD_append _ _ _ _ (by simpa using hi), getD_replicate _ _ _ _ hi]
  · intro j hj
    constructor
    · rw [mixMHR_Xd, List.append_assoc,
        List.getD_append_right _ _ _ _ (by omega),
        List.getD_append _ _ _ _ (by omega)]
      congr 1
      omega
    · rw [mixMHR_diagVar, List.append_assoc,
        List.getD_append_right _ _ _ _ (by simp),
        List.getD_append _ _ _ _ (by simpa using hj)]
      rw [List.length_replicate, Nat.add_sub_cancel_left, getD_replicate _ _ _ _ hj]
  · intro hmix i j hi hj
    constructor
    · rw [mixMHR_Xd, if_pos hmix, List.append_assoc,
        List.getD_append_right _ _ _ _ (by omega),
        List.getD_append_right _ _ _ _ (by omega)]
      have hidx : X1.length + X2.length + i * X2.length + j - X1.length - X2.length
          = i * X2.length + j := by omega
      rw [hidx]
      exact interCols_getD X1 X2 i j hi hj
    · rw [mixMHR_diagVar, if_pos hmix, List.append_assoc,
        List.getD_append_right _ _ _ _ (by simp; omega),
        List.getD_append_right _ _ _ _ (by simp; omega)]
      rw [List.length_replicate, List.length_replicate]
      have hlt : X1.length + X2.length + i * X2.length + j - X1.length - X2.length
          < X1.length * X2.length := by
        have h1 : i * X2.length + j < X1.length * X2.length := by
          have h2 : i + 1 ≤ X1.length := hi
          have h3 : (i + 1) * X2.length ≤ X1.length * X2.length :=
            Nat.mul_le_mul_right _ h2
          rw [Nat.succ_mul] at h3
          omega
        omega
      exact getD_replicate _ _ _ _ hlt

/-- Witness for C7 at `X1 = [[1, 2]]`, `X2 = [[3, 4]]`, `mixVar = 1`: the
interaction column equals the elementwise product of the two columns. -/
theorem mixMHR_design_spec_witness :
    (1 : ℚ) ≠ 0 ∧
    (mixMHR_Xd [[1, 2]] [[3, 4]] 1).getD
        (([[1, 2]] : List Col).length + ([[3, 4]] : List Col).length +
          0 * ([[3, 4]] : List Col).length + 0) [] =
      colMul (([[1, 2]] : List Col).getD 0 []) (([[3, 4]] : List Col).getD 0 []) := by
  refine ⟨by norm_num, ?_⟩
  exact ((mixMHR_design_spec [[1, 2]] [[3, 4]] 1 1 1 1).2.2.2 (by norm_num) 0 0
    (by norm_num) (by norm_num)).1

/- ### Determinism of the modelled sampler (C4) -/

/-- A constant computation is well-behaved. -/
theorem detM_pure {α : Type} (a : α) : DetM (pure a : DrawM α) := by
  constructor
  · intro s c; exact le_refl c
  · intro s1 s2 c h; rfl

/-- Consuming one draw is well-behaved. -/
theorem detM_nextD : DetM nextD := by
  constructor
  · intro s c
    show c ≤ c + 1
    omega
  · intro s1 s2 c h
    have hc : s1 c = s2 c := h c (le_refl c) (by show c < c + 1; omega)
    show (s1 c, c + 1) = (s2 c, c + 1)
    rw [hc]

/-- Sequencing preserves well-behavedness. -/
theorem detM_bind {α β : Type} {m : DrawM α} {f : α → DrawM β}
    (hm : DetM m) (hf : ∀ a, DetM (f a)) : DetM (m >>= f) := by
  constructor
  · intro s c
    show c ≤ (f (m s c).1 s (m s c).2).2
    exact le_trans (hm.1 s c) ((hf (m s c).1).1 s (m s c).2)
  · intro s1 s2 c h
    have hcur : (m s1 c).2 ≤ ((m >>= f) s1 c).2 := (hf (m s1 c).1).1 s1 (m s1 c).2
    have hm12 : m s1 c = m s2 c :=
      hm.2 s1 s2 c (fun i hi hi2 => h i hi (lt_of_lt_of_le hi2 hcur))
    show f (m s1 c).1 s1 (m s1 c).2 = f (m s2 c).1 s2 (m s2 c).2
    rw [← hm12]
    refine (hf (m s1 c).1).2 s1 s2 (m s1 c).2 (fun i hi hi2 => ?_)
    exact h i (le_trans (hm.1 s1 c) hi) hi2

/-- Branching preserves well-behavedness. -/
theorem detM_ite {α : Type} (P : Prop) [Decidable P] {m1 m2 : DrawM α}
    (h1 : DetM m1) (h2 : DetM m2) : DetM (if P then m1 else m2) := by
  split
  · exact h1
  · exact h2

/-- `drawN` is well-behaved. -/
theorem detM_drawN (k : ℕ) : DetM (drawN k) := by
  induction k with
  | zero => exact detM_pure []
  | succ k ih => exact detM_bind detM_nextD fun v => detM_bind ih fun vs => detM_pure _

/-- `rgammaD` is well-behaved. -/
theorem detM_rgammaD (shape scale : ℚ) : DetM (rgammaD shape scale) :=
  detM_bind detM_nextD fun _ => detM_pure _

/-- `rHalfCauchyFC` is well-behaved. -/
theorem detM_rHC (x2 a b : ℚ) (useY : Bool) : DetM (rHalfCauchyFC x2 a b useY) :=
  detM_bind (detM_rgammaD _ _) fun _ =>
    detM_bind (detM_rgammaD _ _) fun _ => detM_pure _

/-- `sampleIntD` is well-behaved. -/
theorem detM_sampleIntD (probs : List ℚ) : DetM (sampleIntD probs) :=
  detM_bind detM_nextD fun _ => detM_pure _

/-- `gammaList` is well-behaved. -/
theorem detM_gammaList (alpha : List ℚ) : DetM (gammaList alpha) := by
  induction alpha with
  | nil => exact detM_pure []
  | cons a as ih =>
      exact detM_bind (detM_rgammaD _ _) fun _ => detM_bind ih fun _ => detM_pure _

/-- `rDirichletD` is well-behaved. -/
theorem detM_rDirichletD (alpha : List ℚ) : DetM (rDirichletD alpha) :=
  detM_bind (detM_gammaList _) fun _ => detM_pure _

/-- The structural-move branch is well-behaved. -/
theorem detM_structBranch (cfg : MCfg) (hp : CfgOK cfg)
    (t side selfN selfE otherN otherE step : ℕ) :
    DetM (structBranch cfg t side selfN selfE otherN otherE step) := by
  refine detM_bind (hp _ _) fun pr => detM_bind (detM_drawN _) fun _ => ?_
  refine detM_ite _ ?_ (detM_pure _)
  refine detM_bind (detM_drawN _) fun _ => detM_bind detM_nextD fun a => ?_
  exact detM_ite _ (detM_pure _) (detM_pure _)

/-- The switch-exposure branch is well-behaved. -/
theorem detM_switchBranch (cfg : MCfg) (t side : ℕ) (expProb : List ℚ)
    (selfN selfE otherN otherE step : ℕ) :
    DetM (switchBranch cfg t side expProb selfN selfE otherN otherE step) := by
  refine detM_bind (detM_sampleIntD _) fun newE => detM_bind (detM_drawN _) fun _ => ?_
  refine detM_ite _ ?_ (detM_pure _)
  refine detM_bind (detM_drawN _) fun _ => detM_bind detM_nextD fun a => ?_
  exact detM_ite _ (detM_pure _) (detM_pure _)

/-- One tree update is well-behaved. -/
theorem detM_treeSide (cfg : MCfg) (hp : CfgOK cfg) (t side : ℕ) (expProb : List ℚ)
    (selfN selfE otherN otherE : ℕ) :
    DetM (treeSide cfg t side expProb selfN selfE otherN otherE) := by
  refine detM_bind (detM_sampleIntD _) fun drawn => ?_
  exact detM_ite _ (detM_structBranch cfg hp _ _ _ _ _ _ _)
    (detM_switchBranch cfg _ _ _ _ _ _ _ _)

/-- The pair-scale update is well-behaved. -/
theorem detM_tauStep (cfg : MCfg) (t n1 n2 e1 e2 : ℕ) (tau : ℚ) :
    DetM (tauStep cfg t n1 n2 e1 e2 tau) :=
  detM_ite _ (detM_bind (detM_rHC _ _ _ _) fun _ => detM_pure _) (detM_pure _)

/-- One tree-pair step is well-behaved. -/
theorem detM_treePairStep (cfg : MCfg) (hp : CfgOK cfg) (t : ℕ) (st : MSt) (p : PairSt) :
    DetM (treePairStep cfg t st p) :=
  detM_bind (detM_treeSide cfg hp _ _ _ _ _ _ _) fun r1 =>
    detM_bind (detM_treeSide cfg hp _ _ _ _ _ _ _) fun r2 =>
      detM_bind (detM_tauStep _ _ _ _ _ _ _) fun _ => detM_pure _

/-- The tree-pair loop is well-behaved. -/
theorem detM_pairsLoop (cfg : MCfg) (hp : CfgOK cfg) (ps : List PairSt) :
    ∀ (t : ℕ) (st : MSt), DetM (pairsLoop cfg t ps st) := by
  induction ps with
  | nil => intro t st; exact detM_pure _
  | cons p ps ih =>
      intro t st
      exact detM_bind (detM_treePairStep cfg hp t st p) fun r =>
        detM_bind (ih (t + 1) r.2) fun rest => detM_pure _

/-- The interaction-row inner loop is well-behaved. -/
theorem detM_mixRowGo (cfg : MCfg) (i : ℕ) (js : List ℕ) : DetM (mixRowGo cfg i js) := by
  induction js with
  | nil => exact detM_pure _
  | cons j js ih =>
      exact detM_ite _ (detM_bind (detM_rHC _ _ _ _) fun _ => ih) ih

/-- The interaction-row update is well-behaved. -/
theorem detM_mixRow (cfg : MCfg) (i : ℕ) : DetM (mixRow cfg i) :=
  detM_ite _ (detM_mixRowGo _ _ _) (detM_pure _)

/-- The per-exposure shrinkage loop is well-behaved. -/
theorem detM_muLoop (cfg : MCfg) (ps : List PairSt) (is : List ℕ) :
    ∀ (mus : List ℚ), DetM (muLoop cfg ps is mus) := by
  induction is with
  | nil => intro mus; exact detM_pure _
  | cons i is ih =>
      intro mus
      exact detM_bind (detM_rHC _ _ _ _) fun out =>
        detM_bind (detM_mixRow _ _) fun _ => ih _

/-- The pre-update part of a sweep is well-behaved. -/
theorem detM_sweepPre (cfg : MCfg) (hp : CfgOK cfg) (st : MSt) : DetM (sweepPre cfg st) := by
  unfold sweepPre
  refine detM_bind (detM_pairsLoop cfg hp _ _ _) fun r => ?_
  refine detM_bind (detM_drawN _) fun _ => ?_
  refine detM_bind (detM_rHC _ _ _ _) fun nuOut => ?_
  refine detM_ite _ ?_ (detM_pure _)
  exact detM_bind (detM_muLoop _ _ _ _) fun _ => detM_pure _

/-- The exposure-probability update is well-behaved. -/
theorem detM_expProbStep (cfg : MCfg) (b : ℕ) (st : MSt) : DetM (expProbStep cfg b st) :=
  detM_ite _ (detM_bind (detM_rDirichletD _) fun _ => detM_pure _) (detM_pure _)

/-- One full sweep is well-behaved. -/
theorem detM_sweepIter (cfg : MCfg) (hp : CfgOK cfg) (b : ℕ) (st : MSt) :
    DetM (sweepIter cfg b st) :=
  detM_bind (detM_sweepPre cfg hp st) fun st1 => detM_expProbStep cfg b st1

/-- The MCMC iteration loop is well-behaved. -/
theorem detM_iterLoop (cfg : MCfg) (hp : CfgOK cfg) (k : ℕ) :
    ∀ (b : ℕ) (st : MSt), DetM (iterLoop cfg b k st) := by
  induction k with
  | zero => intro b st; exact detM_pure _
  | succ k ih =>
      intro b st
      exact detM_bind (detM_sweepIter cfg hp b st) fun st' => ih (b + 1) st'

/-- The initial exposure assignment is well-behaved. -/
theorem detM_initPairs (expProb0 : List ℚ) (k : ℕ) : DetM (initPairs expProb0 k) := by
  induction k with
  | zero => exact detM_pure _
  | succ k ih =>
      exact detM_bind (detM_sampleIntD _) fun e1 =>
        detM_bind (detM_sampleIntD _) fun e2 => detM_bind ih fun ps => detM_pure _

/-- The initial pair-scale draws are well-behaved. -/
theorem detM_initTaus (cfg : MCfg) (ps : List PairSt) : DetM (initTaus cfg ps) := by
  induction ps with
  | nil => exact detM_pure _
  | cons p ps ih =>
      simp only [initTaus]
      refine detM_ite _ ?_ ?_
      · exact detM_bind (detM_rHC _ _ _ _) fun out =>
          detM_bind (detM_pure _) fun y => detM_bind ih fun ps' => detM_pure _
      · exact detM_bind (detM_pure _) fun y => detM_bind ih fun ps' => detM_pure _

/-- The sampler initialization is well-behaved. -/
theorem detM_tdlmmInit (cfg : MCfg) (hp : CfgOK cfg) (expProb0 : List ℚ) :
    DetM (tdlmmInit cfg expProb0) := by
  refine detM_bind (detM_drawN _) fun _ => ?_
  refine detM_bind (detM_initPairs _ _) fun ps => ?_
  refine detM_bind (detM_drawN _) fun _ => ?_
  refine detM_bind (detM_rHC _ _ _ _) fun nuOut => ?_
  exact detM_bind (detM_initTaus _ _) fun ps' => detM_pure _

/-- The full modelled sampler is well-behaved: monotone cursor and
prefix-determined output. -/
theorem detM_tdlmmRun (cfg : MCfg) (hp : CfgOK cfg) (expProb0 : List ℚ) :
    DetM (tdlmmRun cfg expProb0) :=
  detM_bind (detM_tdlmmInit cfg hp expProb0) fun st0 =>
    detM_iterLoop cfg hp _ _ st0

/-- Claim C4: with the random-number stream an explicit input, the full
modelled sampler is a deterministic function of (configuration, stream)
with a fixed draw order — two runs on the same configuration and on streams
that agree on the consumed prefix produce identical accept/reject records
(the `TreeAccept` trace inside the final state) and identical final
diagnostic outputs. -/
theorem tdlmmRun_deterministic (cfg : MCfg) (expProb0 : List ℚ) (hp : CfgOK cfg)
    (s1 s2 : ℕ → ℚ)
    (h : ∀ i, i < (tdlmmRun cfg expProb0 s1 0).2 → s1 i = s2 i) :
    tdlmmRun cfg expProb0 s1 0 = tdlmmRun cfg expProb0 s2 0 :=
  (detM_tdlmmRun cfg hp expProb0).2 s1 s2 0 (fun i _ hi => h i hi)

/-- Witness for C4: the tiny configuration with the trivial proposal oracle
and the constant-0 stream. -/
theorem tdlmmRun_deterministic_witness :
    CfgOK cfgW ∧ tdlmmRun cfgW [1] (fun _ => 0) 0 = tdlmmRun cfgW [1] (fun _ => 0) 0 := by
  have hok : CfgOK cfgW := fun n k => detM_pure (false, 0, 1)
  exact ⟨hok, tdlmmRun_deterministic cfgW [1] hok (fun _ => 0) (fun _ => 0)
    (fun i _ => rfl)⟩

/- ### Claim C5: the exposure-probability warm-up threshold -/

/-- One tree-pair step does not change the exposure-selection probabilities. -/
theorem treePairStep_expProb (cfg : MCfg) (t : ℕ) (st : MSt) (p : PairSt)
    (s : ℕ → ℚ) (c : ℕ) :
    ((treePairStep cfg t st p) s c).1.2.expProb = st.expProb := rfl

/-- The tree-pair loop does not change the exposure-selection probabilities. -/
theorem pairsLoop_expProb (cfg : MCfg) (ps : List PairSt) :
    ∀ (t : ℕ) (st : MSt) (s : ℕ → ℚ) (c : ℕ),
      ((pairsLoop cfg t ps st) s c).1.2.expProb = st.expProb := by
  induction ps with
  | nil => intro t st s c; rfl
  | cons p ps ih =>
      intro t st s c
      show ((pairsLoop cfg (t + 1) ps ((treePairStep cfg t st p) s c).1.2) s
          ((treePairStep cfg t st p) s c).2).1.2.expProb = st.expProb
      rw [ih]
      exact treePairStep_expProb cfg t st p s c

/-- The pre-update part of the sweep does not change the exposure-selection
probabilities. -/
theorem sweepPre_expProb (cfg : MCfg) (st : MSt) (s : ℕ → ℚ) (c : ℕ) :
    ((sweepPre cfg st) s c).1.expProb = st.expProb := by
  simp only [sweepPre, bind_apply]
  split
  · simp only [bind_apply, pure_apply]
    exact pairsLoop_expProb cfg st.pairs 0 _ s c
  · simp only [pure_apply]
    exact pairsLoop_expProb cfg st.pairs 0 _ s c

/-- Claim C5: in the sweep with iteration counter `b`, the
exposure-selection probability vector is redrawn as a Dirichlet draw with
parameters (per-exposure usage counts + modKappa) exactly when `b > 1000`
or `b > 0.5 * burn`, and is left unchanged by the sweep otherwise. -/
theorem expProb_update_iff (cfg : MCfg) (b : ℕ) (st : MSt) (s : ℕ → ℚ) (c : ℕ) :
    ((sweepIter cfg b st) s c).1.expProb =
      if 1000 < b ∨ (1/2 : ℚ) * cfg.burn < (b : ℚ) then
        ((rDirichletD ((((sweepPre cfg st) s c).1.expCount).map
            fun k => (k : ℚ) + cfg.modKappa)) s (((sweepPre cfg st) s c).2)).1
      else st.expProb := by
  unfold sweepIter
  simp only [bind_apply]
  unfold expProbStep
  by_cases hcond : 1000 < b ∨ (1/2 : ℚ) * cfg.burn < (b : ℚ)
  · rw [if_pos hcond, if_pos hcond]
    simp only [bind_apply, pure_apply]
  · rw [if_neg hcond, if_neg hcond]
    simp only [pure_apply]
    exact sweepPre_expProb cfg st s c

/- ### Claim C6: the single-terminal-node fallback -/

/-- The structural branch records the step it was given. -/
theorem structBranch_step (cfg : MCfg) (t side selfN selfE otherN otherE step : ℕ)
    (s : ℕ → ℚ) (c : ℕ) :
    ((structBranch cfg t side selfN selfE otherN otherE step s c).1.2.2).step = step := by
  unfold structBranch
  simp only [bind_apply]
  split
  · simp only [bind_apply]
    split <;> rfl
  · rfl

/-- The switch-exposure branch records the step it was given. -/
theorem switchBranch_step (cfg : MCfg) (t side : ℕ) (expProb : List ℚ)
    (selfN selfE otherN otherE step : ℕ) (s : ℕ → ℚ) (c : ℕ) :
    ((switchBranch cfg t side expProb selfN selfE otherN otherE step s c).1.2.2).step
      = step := by
  unfold switchBranch
  simp only [bind_apply]
  split
  · simp only [bind_apply]
    split <;> rfl
  · rfl

/-- The step recorded by one tree update is the resolved move type. -/
theorem treeSide_step (cfg : MCfg) (t side : ℕ) (expProb : List ℚ)
    (selfN selfE otherN otherE : ℕ) (s : ℕ → ℚ) (c : ℕ) :
    ((treeSide cfg t side expProb selfN selfE otherN otherE s c).1.2.2).step =
      resolveStep selfN ((sampleInt cfg.stepProb (s c)).getD cfg.stepProb.length) := by
  unfold treeSide
  simp only [sampleIntD, bind_apply, pure_apply, nextD_apply]
  split
  · exact structBranch_step cfg t side selfN selfE otherN otherE _ s _
  · exact switchBranch_step cfg t side expProb selfN selfE otherN otherE _ s _

/-- Claim C6: on a tree with exactly one terminal node, a sampled
grow/prune/change move (`drawn < 3`) is carried out as a grow move
(recorded step 0), while a sampled switch-exposure move (`drawn = 3`) is
carried out as drawn (recorded step 3). -/
theorem singleTerminal_fallback (cfg : MCfg) (t side : ℕ) (expProb : List ℚ)
    (selfE otherN otherE : ℕ) (s : ℕ → ℚ) (c : ℕ) (drawn : ℕ)
    (hd : drawn = (sampleInt cfg.stepProb (s c)).getD cfg.stepProb.length) :
    (drawn < 3 →
      ((treeSide cfg t side expProb 1 selfE otherN otherE s c).1.2.2).step = 0) ∧
    (drawn = 3 →
      ((treeSide cfg t side expProb 1 selfE otherN otherE s c).1.2.2).step = 3) := by
  constructor
  · intro h3
    rw [treeSide_step, ← hd]
    simp [resolveStep, h3]
  · intro h3
    rw [treeSide_step, ← hd]
    simp [resolveStep, h3]

/-- Witness for C6: with move probabilities `[1]` and the constant-0
stream, the drawn move type is 0 (< 3) and the recorded step is 0. -/
theorem singleTerminal_fallback_witness :
    (0 : ℕ) < 3 ∧
    ((treeSide cfgW 0 1 [1] 1 0 1 0 (fun _ => 0) 0).1.2.2).step = 0 := by
  refine ⟨by omega, ?_⟩
  have hd : (0 : ℕ) = (sampleInt cfgW.stepProb ((fun _ => (0:ℚ)) 0)).getD
      cfgW.stepProb.length := by
    show (0 : ℕ) = (sampleInt [1] 0).getD 1
    norm_num [sampleInt, scanFrom]
  exact (singleTerminal_fallback cfgW 0 1 [1] 0 1 0 (fun _ => 0) 0 0 hd).1 (by omega)
